import Mathlib

/-!
Verification development for the TripFlow markdown-processing pipeline
(`internal/services` markdown service).

The pipeline takes raw markdown text and produces a `ProcessedContent`
value: an extracted title, an extracted description and a sanitized HTML
body.  A separate helper, `findInternalImages`, scans the raw markdown
for image references whose targets are not absolute http(s) URLs.

Strings are modelled as `List Char` so that structural reasoning about
substrings and prefixes is available.  The third-party collaborators
(the goldmark CommonMark parser/renderer and the bluemonday sanitizer)
are not part of this repository's sources; they are modelled from the
specification's description of their behaviour, and each such definition
is marked `Modelled from the spec:` in its doc comment.  Everything else
is translated directly from the repository's own Go source.
-/

abbrev Str := List Char

/-- ASCII lower-casing of a single character (used for the
case-insensitive checks the specification asks for). -/
def lcChar : Char → Char
  | 'A' => 'a' | 'B' => 'b' | 'C' => 'c' | 'D' => 'd' | 'E' => 'e'
  | 'F' => 'f' | 'G' => 'g' | 'H' => 'h' | 'I' => 'i' | 'J' => 'j'
  | 'K' => 'k' | 'L' => 'l' | 'M' => 'm' | 'N' => 'n' | 'O' => 'o'
  | 'P' => 'p' | 'Q' => 'q' | 'R' => 'r' | 'S' => 's' | 'T' => 't'
  | 'U' => 'u' | 'V' => 'v' | 'W' => 'w' | 'X' => 'x' | 'Y' => 'y'
  | 'Z' => 'z' | c => c

/-- ASCII lower-casing of a string. -/
def lcStr (s : Str) : Str := s.map lcChar

/-- ASCII whitespace, matching the characters `strings.TrimSpace`
removes on the inputs this pipeline sees. -/
def isSpaceC (c : Char) : Bool := c = ' ' || c = '\t' || c = '\n' || c = '\r'

/-- Embedding of Go's `strings.TrimSpace`: drop leading and trailing
whitespace. -/
def trimStr (s : Str) : Str :=
  ((s.dropWhile isSpaceC).reverse.dropWhile isSpaceC).reverse

/-- Inline markdown content, as produced by the document parser: plain
text runs and images.  (The Go code walks the goldmark AST and only ever
distinguishes `ast.Text` nodes from everything else, so this restricted
inline alphabet is enough for the extraction pipeline.) -/
inductive Inline where
  | text (s : Str)
  | image (alt dest : Str)
deriving DecidableEq, Repr

/-- Block-level markdown structure: ATX headings and paragraphs. -/
inductive Block where
  | heading (level : Nat) (content : List Inline)
  | para (content : List Inline)
deriving DecidableEq, Repr

/-- An HTML document tree: text nodes and elements with attributes. -/
inductive Hnode where
  | text (s : Str)
  | elem (tag : Str) (attrs : List (Str × Str)) (children : List Hnode)

/-- Modelled from the spec: the tag allow-list of the bluemonday
"user generated content" policy, restricted to the common
formatting/structural elements the specification enumerates
(headings, paragraphs, emphasis, lists, links, images, code/pre,
blockquote, tables, plus `br`/`hr`). -/
def allowedTags : List Str :=
  ["p".toList, "h1".toList, "h2".toList, "h3".toList, "h4".toList,
   "h5".toList, "h6".toList, "em".toList, "strong".toList, "a".toList,
   "img".toList, "ul".toList, "ol".toList, "li".toList, "code".toList,
   "pre".toList, "blockquote".toList, "br".toList, "hr".toList,
   "table".toList, "thead".toList, "tbody".toList, "tr".toList,
   "th".toList, "td".toList]

/-- Modelled from the spec: elements whose entire content the sanitizer
removes (`<script>` and `<style>`). -/
def skipContentTags : List Str := ["script".toList, "style".toList]

/-- Attribute names that carry URLs and are therefore subject to the
URL-scheme check. -/
def urlAttrName (n : Str) : Bool := n == "href".toList || n == "src".toList

/-- Modelled from the spec: a URL value is acceptable when it is an
absolute `http://` or `https://` URL or has no scheme at all (no colon);
every other scheme (`javascript:`, `ftp:`, ...) is rejected and the
attribute is stripped. -/
def urlOk (v : Str) : Bool :=
  ("http://".toList).isPrefixOf v || ("https://".toList).isPrefixOf v ||
    !(v.contains ':')

/-- Modelled from the spec: the attribute allow-list of the sanitizer
policy (`src`/`alt` on images, `href`/`title` on links). -/
def allowedAttr (tag n : Str) : Bool :=
  (tag == "img".toList && (n == "src".toList || n == "alt".toList)) ||
  (tag == "a".toList && (n == "href".toList || n == "title".toList))

/-- Modelled from the spec: attribute filtering — keep an attribute only
when its name is allowed on the tag and, for URL-carrying attributes,
its value passes the scheme check. -/
def filterAttrs (tag : Str) (attrs : List (Str × Str)) : List (Str × Str) :=
  attrs.filter (fun nv => allowedAttr tag nv.1 && (!urlAttrName nv.1 || urlOk nv.2))

mutual
/-- Modelled from the spec: the allow-list sanitizer on one HTML node.
`script`/`style` elements are removed together with their content;
elements with allowed tags are kept with filtered attributes and
sanitized children; any other element is removed but its (sanitized)
children are kept. -/
def sanitize1 : Hnode → List Hnode
  | .text s => [.text s]
  | .elem t attrs cs =>
      if t ∈ skipContentTags then []
      else if t ∈ allowedTags then [.elem t (filterAttrs t attrs) (sanitizeL cs)]
      else sanitizeL cs

/-- Modelled from the spec: the sanitizer on a list of sibling nodes. -/
def sanitizeL : List Hnode → List Hnode
  | [] => []
  | h :: t => sanitize1 h ++ sanitizeL t
end

/-- HTML escaping of one character, as the renderer applies to text and
attribute values. -/
def escChar : Char → Str
  | '<' => "&lt;".toList
  | '>' => "&gt;".toList
  | '&' => "&amp;".toList
  | '"' => "&quot;".toList
  | c => [c]

/-- HTML escaping of a string. -/
def escStr (s : Str) : Str := s.flatMap escChar

/-- Render an attribute list as ` name="escaped value"` runs. -/
def renderAttrs : List (Str × Str) → Str
  | [] => []
  | nv :: rest =>
      ' ' :: (nv.1 ++ '=' :: '"' :: (escStr nv.2 ++ '"' :: renderAttrs rest))

mutual
/-- Modelled from the spec: HTML serialization of a node — text is
escaped, an element becomes an open tag with attributes, its rendered
children and a close tag. -/
def render : Hnode → Str
  | .text s => escStr s
  | .elem t attrs cs =>
      '<' :: (t ++ (renderAttrs attrs ++
        '>' :: (renderList cs ++ '<' :: '/' :: (t ++ ['>']))))

/-- Serialization of a list of sibling nodes. -/
def renderList : List Hnode → Str
  | [] => []
  | h :: t => render h ++ renderList t
end

/-- Modelled from the spec: top-level block serialization; goldmark
emits a newline after every block element. -/
def renderBlocks : List Hnode → Str
  | [] => []
  | h :: t => render h ++ '\n' :: renderBlocks t

/-- Split a string into its lines (separator `'\n'`). -/
def splitLines : Str → List Str
  | [] => [[]]
  | c :: t =>
      let r := splitLines t
      if c = '\n' then [] :: r else (c :: r.headD []) :: r.tail

/-- A line consisting only of spaces and tabs. -/
def isBlankLine (l : Str) : Bool := l.all (fun c => c = ' ' || c = '\t')

/-- Modelled from the spec: ATX-heading recognition — one to six leading
`#` characters followed by a space or the end of the line; the heading
content is the trimmed remainder. -/
def headingParse (l : Str) : Option (Nat × Str) :=
  let n := (l.takeWhile (fun c => c = '#')).length
  let rest := l.dropWhile (fun c => c = '#')
  if 1 ≤ n ∧ n ≤ 6 ∧ (rest = [] ∨ rest.head? = some ' ') then
    some (n, trimStr rest)
  else none

/-- Join lines with `'\n'`, the inverse of `splitLines` on its image. -/
def joinLines : List Str → Str
  | [] => []
  | [l] => l
  | l :: ls => l ++ '\n' :: joinLines ls

/-- Split a string at the first occurrence of the two-character
delimiter `](`, returning the part before it and the part after it. -/
def splitAtBrkParen : Str → Option (Str × Str)
  | [] => none
  | ']' :: '(' :: r => some ([], r)
  | c :: t => (splitAtBrkParen t).map (fun p => (c :: p.1, p.2))

/-- Split a string at the first `)`, returning the part before and the
part after. -/
def splitAtParen : Str → Option (Str × Str)
  | [] => none
  | ')' :: r => some ([], r)
  | c :: t => (splitAtParen t).map (fun p => (c :: p.1, p.2))

/-- Modelled from the spec: goldmark's inline image syntax, restricted
to the simple form `![alt](dest)` with a destination containing neither
spaces nor newlines.  The argument is the text following `![`; on
success the alt text, the destination and the remaining input are
returned. -/
def tryImage (s : Str) : Option (Str × Str × Str) :=
  match splitAtBrkParen s with
  | none => none
  | some (alt, r1) =>
      match splitAtParen r1 with
      | none => none
      | some (dest, r2) =>
          if dest.contains ' ' || dest.contains '\n' then none
          else some (alt, dest, r2)

/-- Modelled from the spec: fuel-driven inline parser.  Text is
accumulated (in reverse) until an image occurrence `![alt](dest)` is
recognised; unparsable image syntax is kept as literal text. -/
def parseInlinesGo : Nat → Str → Str → List Inline
  | 0, acc, rest =>
      if acc.reverse ++ rest = [] then [] else [.text (acc.reverse ++ rest)]
  | _ + 1, acc, [] => if acc = [] then [] else [.text acc.reverse]
  | fuel + 1, acc, '!' :: '[' :: t =>
      match tryImage t with
      | some (alt, dest, rest) =>
          (if acc = [] then [] else [Inline.text acc.reverse]) ++
            Inline.image alt dest :: parseInlinesGo fuel [] rest
      | none => parseInlinesGo fuel ('!' :: acc) ('[' :: t)
  | fuel + 1, acc, c :: t => parseInlinesGo fuel (c :: acc) t

/-- Inline parsing of a run of text. -/
def parseInlines (s : Str) : List Inline := parseInlinesGo (2 * s.length + 2) [] s

/-- Modelled from the spec: fuel-driven block parser — blank lines are
skipped, ATX-heading lines become heading blocks, and maximal runs of
other non-blank lines become paragraph blocks. -/
def parseLines : Nat → List Str → List Block
  | 0, _ => []
  | _ + 1, [] => []
  | fuel + 1, l :: ls =>
      if isBlankLine l then parseLines fuel ls
      else
        match headingParse l with
        | some nc => Block.heading nc.1 (parseInlines nc.2) :: parseLines fuel ls
        | none =>
            let more := ls.takeWhile (fun x => !isBlankLine x && (headingParse x).isNone)
            let rest := ls.dropWhile (fun x => !isBlankLine x && (headingParse x).isNone)
            Block.para (parseInlines (joinLines (l :: more))) :: parseLines fuel rest

/-- Modelled from the spec: the goldmark document parse of a markdown
source, restricted to ATX headings, paragraphs and inline images. -/
def parseDoc (md : Str) : List Block :=
  parseLines ((splitLines md).length + 1) (splitLines md)

/-- The HTML tag of a heading of the given level. -/
def headingTag (n : Nat) : Str := 'h' :: [Nat.digitChar n]

/-- Modelled from the spec: goldmark's HTML for one inline node; an
image is rendered as `<img src="..." alt="...">`. -/
def inlineToH : Inline → Hnode
  | .text s => .text s
  | .image alt dest => .elem ("img".toList) [("src".toList, dest), ("alt".toList, alt)] []

/-- Modelled from the spec: goldmark's HTML for one block node. -/
def blockToH : Block → Hnode
  | .heading n c => .elem (headingTag n) [] (c.map inlineToH)
  | .para c => .elem ("p".toList) [] (c.map inlineToH)

/-- Go error values as this package builds them: base errors and
`fmt.Errorf("...: %w", err)` wrappings, which prefix a context message
while keeping the original error available for unwrapping. -/
inductive GoErr where
  | base (msg : Str)
  | wrap (ctx : Str) (inner : GoErr)
deriving DecidableEq, Repr

/-- `errors.Unwrap` on a wrapped Go error. -/
def GoErr.unwrapErr : GoErr → Option GoErr
  | .base _ => none
  | .wrap _ e => some e

/-- The result struct of markdown processing, translated from the Go
`ProcessedContent` struct: it has exactly the fields `Title`,
`Description` and `HTMLContent`. -/
structure ProcessedContent where
  Title : Str
  Description : Str
  HTMLContent : Str
deriving DecidableEq, Repr

/-- The sanitized HTML document tree of a markdown source: parse,
convert each block to HTML and sanitize. -/
def sanitizedDoc (md : Str) : List Hnode :=
  sanitizeL ((parseDoc md).map blockToH)

/-- The HTML string the pipeline produces for a markdown source. -/
def htmlOf (md : Str) : Str := renderBlocks (sanitizedDoc md)

/-- Embedding of `markdownToHTML`: goldmark conversion followed by
bluemonday sanitization.  The conversion error branch of the Go code is
only reachable on catastrophic internal failures, which the model (like
the spec) treats as absent, so the result is always `ok`. -/
def markdownToHTML (md : Str) : Except GoErr Str := Except.ok (htmlOf md)

/-- The flattened direct text children of an inline list, exactly as the
Go walk collects them: only `ast.Text` children contribute; image nodes
(and anything else) are skipped. -/
def flattenText (c : List Inline) : Str :=
  c.foldl (fun b i => match i with | .text s => b ++ s | .image _ _ => b) []

/-- Embedding of the `ast.Walk` callback in `extractTitleAndDescription`:
the walk keeps the current title and description and updates them at
level-1 headings (when the title is still empty) and at paragraphs (when
the description is still empty). -/
def walkTD : List Block → Str → Str → Str × Str
  | [], t, d => (t, d)
  | .heading n c :: bs, t, d =>
      if n = 1 ∧ t = [] then walkTD bs (trimStr (flattenText c)) d
      else walkTD bs t d
  | .para c :: bs, t, d =>
      if d = [] then walkTD bs t (trimStr (flattenText c))
      else walkTD bs t d

/-- Embedding of `extractTitleAndDescription`: parse the markdown and
walk the document, starting from empty title and description. -/
def extractTitleAndDescription (md : Str) : Str × Str :=
  walkTD (parseDoc md) [] []

/-- Embedding of `processImages`: the Go function returns its input
unchanged and a nil error. -/
def processImages (htmlContent : Str) : Except GoErr Str := Except.ok htmlContent

/-- Embedding of `ProcessMarkdown`: convert to sanitized HTML, extract
title and description, run the image-processing step, and assemble the
`ProcessedContent`; each error branch wraps the underlying error with a
context message. -/
def ProcessMarkdown (markdownContent : Str) : Except GoErr ProcessedContent :=
  match markdownToHTML markdownContent with
  | .error e => .error (.wrap ("failed to convert markdown to HTML".toList) e)
  | .ok htmlContent =>
      let td := extractTitleAndDescription markdownContent
      match processImages htmlContent with
      | .error e => .error (.wrap ("failed to process images".toList) e)
      | .ok processedHTML =>
          .ok ⟨td.1, td.2, processedHTML⟩

/-- Embedding of `ProcessMarkdownFromFile`: read the file from the
storage collaborator (modelled as a function from paths to file content
or a storage error) and process it; a storage failure is wrapped with
the context message `failed to read file`. -/
def ProcessMarkdownFromFile (getFile : Str → Except GoErr Str) (filePath : Str) :
    Except GoErr ProcessedContent :=
  match getFile filePath with
  | .error e => .error (.wrap ("failed to read file".toList) e)
  | .ok content => ProcessMarkdown content

/-- The greedy capture group `([^)]+)` followed by `)`: take the maximal
nonempty run of non-`)` characters and require a closing parenthesis. -/
def grabTarget (s : Str) : Option (Str × Str) :=
  let tgt := s.takeWhile (fun c => !(c == ')'))
  let rest := s.dropWhile (fun c => !(c == ')'))
  match tgt, rest with
  | [], _ => none
  | _, ')' :: r => some (tgt, r)
  | _, _ => none

/-- The lazy part `.*?\]\(([^)]+)\)` of the image regex, applied after
`![` has been consumed: scan for the first `](` whose capture succeeds;
`.` does not match a newline, while `[^)]` does. -/
def lazyScan : Str → Option (Str × Str)
  | [] => none
  | ']' :: t =>
      (match t with
       | '(' :: r =>
           (match grabTarget r with
            | some p => some p
            | none => lazyScan t)
       | _ => lazyScan t)
  | '\n' :: _ => none
  | _ :: t => lazyScan t

/-- A match of the image regex starting at the current position, which
must begin with `[` (the `!` has already been consumed). -/
def startMatch : Str → Option (Str × Str)
  | '[' :: t => lazyScan t
  | _ => none

/-- Fuel-driven embedding of `regexp.FindAllStringSubmatch` for the
image regex `!\[.*?\]\(([^)]+)\)`: leftmost, non-overlapping matches;
each match contributes its capture group (the image target). -/
def scanGo : Nat → Str → List Str
  | 0, _ => []
  | _ + 1, [] => []
  | fuel + 1, '!' :: t =>
      (match startMatch t with
       | some tr => tr.1 :: scanGo fuel tr.2
       | none => scanGo fuel t)
  | fuel + 1, _ :: t => scanGo fuel t

/-- All image targets captured by the regex over a markdown source. -/
def scanImages (s : Str) : List Str := scanGo (s.length + 1) s

/-- The internality test of `findInternalImages`: the target starts with
neither `http://` nor `https://` (case-sensitive). -/
def isInternalPath (p : Str) : Bool :=
  !(("http://".toList).isPrefixOf p) && !(("https://".toList).isPrefixOf p)

/-- Embedding of `findInternalImages`: loop over the regex matches and
append each internal target; the Go function always returns a nil
error. -/
def findInternalImages (markdownContent : Str) : Except GoErr (List Str) :=
  Except.ok ((scanImages markdownContent).foldl
    (fun acc p => if isInternalPath p then acc ++ [p] else acc) [])

/-- Spec side, for comparison with the source: the title rule as the
specification words it — the trimmed flattened text of the first
level-1 heading in document order, or empty when there is none. -/
def specTitle (md : Str) : Str :=
  match (parseDoc md).findSome?
      (fun b => match b with | .heading 1 c => some c | _ => none) with
  | some c => trimStr (flattenText c)
  | none => []

/-- Spec side, for comparison with the source: the description rule as
the specification words it — the trimmed flattened text of the first
paragraph block anywhere in the document, or empty when there is none. -/
def specDescription (md : Str) : Str :=
  match (parseDoc md).findSome?
      (fun b => match b with | .para c => some c | _ => none) with
  | some c => trimStr (flattenText c)
  | none => []

/-- The title the code actually computes: the trimmed flattened text of
the first level-1 heading whose trimmed flattened text is nonempty. -/
def firstUsableH1 : List Block → Str
  | [] => []
  | .heading n c :: bs =>
      if n = 1 ∧ trimStr (flattenText c) ≠ [] then trimStr (flattenText c)
      else firstUsableH1 bs
  | .para _ :: bs => firstUsableH1 bs

/-- The description the code actually computes: the trimmed flattened
direct text of the first paragraph whose trimmed flattened direct text
is nonempty. -/
def firstUsablePara : List Block → Str
  | [] => []
  | .para c :: bs =>
      if trimStr (flattenText c) ≠ [] then trimStr (flattenText c)
      else firstUsablePara bs
  | .heading _ _ :: bs => firstUsablePara bs

mutual
/-- No `javascript:` URL (case-insensitively) in any `href`/`src`
attribute anywhere in an HTML node. -/
def noJsUrl1 : Hnode → Bool
  | .text _ => true
  | .elem _ attrs cs =>
      attrs.all (fun nv =>
        !(urlAttrName nv.1) || !(("javascript:".toList).isPrefixOf (lcStr nv.2))) &&
      noJsUrlL cs

/-- No `javascript:` URL in any node of a list. -/
def noJsUrlL : List Hnode → Bool
  | [] => true
  | h :: t => noJsUrl1 h && noJsUrlL t
end

/-- Strings in which every occurrence of `'<'` opens either an allowed
tag or a closing tag.  The renderer only produces such strings from
sanitized trees, and no such string can contain `<script`. -/
inductive SafeStr : Str → Prop where
  | nil : SafeStr []
  | chr (c : Char) (s : Str) : c ≠ '<' → SafeStr s → SafeStr (c :: s)
  | tagOpen (t s : Str) : t ∈ allowedTags → SafeStr s → SafeStr ('<' :: (t ++ s))
  | tagClose (s : Str) : SafeStr s → SafeStr ('<' :: '/' :: s)

/-- The attribute names the sanitizer can keep. -/
def okAttrName (n : Str) : Bool :=
  n == "src".toList || n == "alt".toList || n == "href".toList || n == "title".toList

mutual
/-- The invariant the sanitizer establishes: every tag is allowed and
every attribute name is on the attribute allow-list. -/
def saneH : Hnode → Bool
  | .text _ => true
  | .elem t attrs cs =>
      decide (t ∈ allowedTags) && attrs.all (fun nv => okAttrName nv.1) && saneL cs

/-- The sanitizer invariant on a list of sibling nodes. -/
def saneL : List Hnode → Bool
  | [] => true
  | h :: t => saneH h && saneL t
end

instance instDecEqExcept {ε α : Type} [DecidableEq ε] [DecidableEq α] :
    DecidableEq (Except ε α) := fun a b =>
  match a, b with
  | .error e, .error f =>
      if h : e = f then .isTrue (by rw [h]) else .isFalse (by simp [h])
  | .ok x, .ok y =>
      if h : x = y then .isTrue (by rw [h]) else .isFalse (by simp [h])
  | .error _, .ok _ => .isFalse (by simp)
  | .ok _, .error _ => .isFalse (by simp)

/-- Prefix order on cons cells: heads agree and the tails are ordered. -/
theorem consPfx {α : Type} {a b : α} {l m : List α} :
    ((a :: l) <+: (b :: m)) ↔ a = b ∧ l <+: m := by
  constructor
  · rintro ⟨t, ht⟩
    simp only [List.cons_append, List.cons.injEq] at ht
    exact ⟨ht.1, t, ht.2⟩
  · rintro ⟨rfl, t, ht⟩
    exact ⟨t, by simp [ht]⟩

/-- An infix of a cons cell is a prefix of it or an infix of the tail. -/
theorem infxConsIff {α : Type} {l m : List α} {a : α} :
    (l <:+: (a :: m)) ↔ (l <+: (a :: m)) ∨ (l <:+: m) := by
  constructor
  · rintro ⟨s, t, hst⟩
    cases s with
    | nil => exact Or.inl ⟨t, by simpa using hst⟩
    | cons b bt =>
        right
        refine ⟨bt, t, ?_⟩
        simp only [List.cons_append, List.cons.injEq] at hst
        exact hst.2
  · rintro (⟨t, ht⟩ | ⟨s, t, hst⟩)
    · exact ⟨[], t, by simpa using ht⟩
    · exact ⟨a :: s, t, by simp [hst]⟩

/-- `List.isPrefixOf` decides the prefix order. -/
theorem isPfxOf_iff : ∀ (a b : Str), (a.isPrefixOf b = true) ↔ a <+: b
  | [], b => by simp [List.isPrefixOf]
  | a :: t, [] => by
      simp only [List.isPrefixOf]
      constructor
      · intro h; exact absurd h (by simp)
      · rintro ⟨s, hs⟩; simp at hs
  | a :: t, b :: u => by
      simp only [List.isPrefixOf, consPfx, Bool.and_eq_true, beq_iff_eq]
      exact and_congr Iff.rfl (isPfxOf_iff t u)

theorem sanitizeL_append (a b : List Hnode) :
    sanitizeL (a ++ b) = sanitizeL a ++ sanitizeL b := by
  induction a with
  | nil => simp [sanitizeL]
  | cons x xs ih => simp [sanitizeL, ih, List.append_assoc]

theorem filterAttrs_idem (t : Str) (a : List (Str × Str)) :
    filterAttrs t (filterAttrs t a) = filterAttrs t a := by
  unfold filterAttrs
  induction a with
  | nil => rfl
  | cons nv rest ih =>
      by_cases h : (allowedAttr t nv.1 && (!urlAttrName nv.1 || urlOk nv.2)) = true
      · simp [List.filter_cons, h, ih]
      · simp [List.filter_cons, h, ih]

mutual
theorem san_idem1 (h : Hnode) : sanitizeL (sanitize1 h) = sanitize1 h := by
  cases h with
  | text s => simp [sanitize1, sanitizeL]
  | elem t attrs cs =>
      by_cases hskip : t ∈ skipContentTags
      · simp [sanitize1, hskip, sanitizeL]
      · by_cases hmem : t ∈ allowedTags
        · simp only [sanitize1, if_neg hskip, if_pos hmem]
          simp only [sanitizeL, List.append_nil]
          simp only [sanitize1, if_neg hskip, if_pos hmem]
          rw [filterAttrs_idem, san_idemL cs]
        · simp only [sanitize1, if_neg hskip, if_neg hmem]
          exact san_idemL cs
termination_by sizeOf h

theorem san_idemL (l : List Hnode) : sanitizeL (sanitizeL l) = sanitizeL l := by
  cases l with
  | nil => simp [sanitizeL]
  | cons h t =>
      simp only [sanitizeL, sanitizeL_append, san_idem1 h, san_idemL t]
termination_by sizeOf l
end


theorem safe_append {a b : Str} (ha : SafeStr a) (hb : SafeStr b) :
    SafeStr (a ++ b) := by
  induction ha with
  | nil => exact hb
  | chr c s hc _ ih => exact .chr c _ hc ih
  | tagOpen t s ht _ ih =>
      have he : ('<' :: (t ++ s)) ++ b = '<' :: (t ++ (s ++ b)) := by simp
      rw [he]
      exact .tagOpen t _ ht ih
  | tagClose s _ ih => exact .tagClose _ ih

theorem safe_of_no_lt {s : Str} (h : ∀ c ∈ s, c ≠ '<') : SafeStr s := by
  induction s with
  | nil => exact .nil
  | cons c t ih =>
      exact .chr c t (h c (by simp)) (ih fun x hx => h x (by simp [hx]))

theorem escChar_no_lt (a : Char) : ∀ c ∈ escChar a, c ≠ '<' := by
  unfold escChar
  split
  · decide
  · decide
  · decide
  · decide
  · rename_i h1 h2 h3 h4
    intro c hc
    simp only [List.mem_singleton] at hc
    subst hc
    exact h1

theorem escStr_no_lt (s : Str) : ∀ c ∈ escStr s, c ≠ '<' := by
  induction s with
  | nil => simp [escStr]
  | cons a t ih =>
      intro c hc
      simp only [escStr, List.flatMap_cons, List.mem_append] at hc
      rcases hc with hc | hc
      · exact escChar_no_lt a c hc
      · exact ih c hc


theorem okAttrName_cases {n : Str} (h : okAttrName n = true) :
    n = "src".toList ∨ n = "alt".toList ∨ n = "href".toList ∨ n = "title".toList := by
  simp only [okAttrName, Bool.or_eq_true, beq_iff_eq] at h
  tauto

theorem allowedAttr_name {t n : Str} (h : allowedAttr t n = true) :
    okAttrName n = true := by
  simp only [allowedAttr, Bool.or_eq_true, Bool.and_eq_true, beq_iff_eq] at h
  simp only [okAttrName, Bool.or_eq_true, beq_iff_eq]
  tauto

theorem name_no_lt {n : Str} (h : okAttrName n = true) : ∀ c ∈ n, c ≠ '<' := by
  rcases okAttrName_cases h with rfl | rfl | rfl | rfl <;> decide

theorem tag_no_lt {t : Str} (ht : t ∈ allowedTags) : ∀ c ∈ t, c ≠ '<' := by
  fin_cases ht <;> decide

theorem renderAttrs_no_lt (attrs : List (Str × Str))
    (h : ∀ nv ∈ attrs, okAttrName nv.1 = true) :
    ∀ c ∈ renderAttrs attrs, c ≠ '<' := by
  induction attrs with
  | nil => simp [renderAttrs]
  | cons nv rest ih =>
      intro c hc
      simp only [renderAttrs, List.mem_cons, List.mem_append] at hc
      rcases hc with rfl | hc
      · decide
      rcases hc with hc | hc
      · exact name_no_lt (h nv (by simp)) c hc
      rcases hc with rfl | hc
      · decide
      rcases hc with rfl | hc
      · decide
      rcases hc with hc | hc
      · exact escStr_no_lt _ c hc
      rcases hc with rfl | hc
      · decide
      · exact ih (fun x hx => h x (by simp [hx])) c hc


theorem saneL_append {a b : List Hnode} (ha : saneL a = true) (hb : saneL b = true) :
    saneL (a ++ b) = true := by
  induction a with
  | nil => simpa using hb
  | cons x xs ih =>
      simp only [saneL, Bool.and_eq_true] at ha
      simp only [List.cons_append, saneL, Bool.and_eq_true]
      exact ⟨ha.1, ih ha.2⟩

mutual
theorem sane_sanitize1 (h : Hnode) : saneL (sanitize1 h) = true := by
  cases h with
  | text s => simp [sanitize1, sanitizeL, saneL, saneH]
  | elem t attrs cs =>
      by_cases hskip : t ∈ skipContentTags
      · simp [sanitize1, hskip, saneL]
      · by_cases hmem : t ∈ allowedTags
        · simp only [sanitize1, if_neg hskip, if_pos hmem, saneL, saneH,
            Bool.and_eq_true, Bool.and_true]
          refine ⟨⟨by simpa using hmem, ?_⟩, sane_sanitizeL cs⟩
          simp only [List.all_eq_true]
          intro nv hnv
          simp only [filterAttrs, List.mem_filter, Bool.and_eq_true] at hnv
          exact allowedAttr_name hnv.2.1
        · simp only [sanitize1, if_neg hskip, if_neg hmem]
          exact sane_sanitizeL cs
termination_by sizeOf h

theorem sane_sanitizeL (l : List Hnode) : saneL (sanitizeL l) = true := by
  cases l with
  | nil => simp [sanitizeL, saneL]
  | cons h t =>
      simp only [sanitizeL]
      exact saneL_append (sane_sanitize1 h) (sane_sanitizeL t)
termination_by sizeOf l
end

mutual
theorem safe_render (h : Hnode) (hs : saneH h = true) : SafeStr (render h) := by
  cases h with
  | text s => exact safe_of_no_lt (escStr_no_lt s)
  | elem t attrs cs =>
      simp only [saneH, Bool.and_eq_true, decide_eq_true_eq, List.all_eq_true] at hs
      obtain ⟨⟨hmem, hattrs⟩, hcs⟩ := hs
      simp only [render]
      refine SafeStr.tagOpen t _ hmem ?_
      refine safe_append (safe_of_no_lt (renderAttrs_no_lt attrs hattrs)) ?_
      refine SafeStr.chr '>' _ (by decide) ?_
      refine safe_append (safe_renderList cs hcs) ?_
      refine SafeStr.tagClose _ ?_
      refine safe_of_no_lt ?_
      intro c hc
      rcases List.mem_append.mp hc with hc | hc
      · exact tag_no_lt hmem c hc
      · simp only [List.mem_singleton] at hc; subst hc; decide
termination_by sizeOf h

theorem safe_renderList (l : List Hnode) (hs : saneL l = true) :
    SafeStr (renderList l) := by
  cases l with
  | nil => exact .nil
  | cons h t =>
      simp only [saneL, Bool.and_eq_true] at hs
      simp only [renderList]
      exact safe_append (safe_render h hs.1) (safe_renderList t hs.2)
termination_by sizeOf l
end

theorem safe_renderBlocks (l : List Hnode) (hs : saneL l = true) :
    SafeStr (renderBlocks l) := by
  induction l with
  | nil => exact .nil
  | cons h t ih =>
      simp only [saneL, Bool.and_eq_true] at hs
      simp only [renderBlocks]
      exact safe_append (safe_render h hs.1) (.chr '\n' _ (by decide) (ih hs.2))

theorem script_not_in_tag {t : Str} (ht : t ∈ allowedTags) (r : Str) :
    ¬ (("script".toList) <+: (t ++ r)) := by
  have hs : "script".toList = 's' :: 'c' :: 'r' :: 'i' :: 'p' :: 't' :: [] := rfl
  rw [hs]
  fin_cases ht <;> (intro hp; simp [List.cons_append, consPfx] at hp)

theorem safe_no_pfx {s : Str} (hs : SafeStr s) :
    ¬ (('<' :: "script".toList) <+: s) := by
  cases hs with
  | nil => rintro ⟨t, ht⟩; simp at ht
  | chr c s hc _ =>
      intro hp
      exact absurd (consPfx.mp hp).1.symm hc
  | tagOpen t s ht _ =>
      intro hp
      exact script_not_in_tag ht s (consPfx.mp hp).2
  | tagClose s _ =>
      intro hp
      have h2 := (consPfx.mp hp).2
      have h3 : ("script".toList) = 's' :: "cript".toList := rfl
      rw [h3] at h2
      exact absurd (consPfx.mp h2).1 (by decide)

theorem ltPat_skip {w s t : Str} (hT : ∀ c ∈ t, c ≠ '<')
    (h : ('<' :: w) <:+: (t ++ s)) : ('<' :: w) <:+: s := by
  induction t with
  | nil => simpa using h
  | cons c ct ih =>
      rcases infxConsIff.mp h with hp | hi
      · exact absurd (consPfx.mp hp).1.symm (hT c (by simp))
      · exact ih (fun x hx => hT x (by simp [hx])) hi

theorem safe_no_script {s : Str} (hs : SafeStr s) :
    ¬ (('<' :: "script".toList) <:+: s) := by
  induction hs with
  | nil => rintro ⟨a, b, h⟩; simp at h
  | chr c s hc hss ih =>
      intro hi
      rcases infxConsIff.mp hi with hp | hi2
      · exact absurd (consPfx.mp hp).1.symm hc
      · exact ih hi2
  | tagOpen t s ht hss ih =>
      intro hi
      rcases infxConsIff.mp hi with hp | hi2
      · exact script_not_in_tag ht s (consPfx.mp hp).2
      · exact ih (ltPat_skip (tag_no_lt ht) hi2)
  | tagClose s hss ih =>
      intro hi
      rcases infxConsIff.mp hi with hp | hi2
      · have h2 := (consPfx.mp hp).2
        have h3 : ("script".toList) = 's' :: "cript".toList := rfl
        rw [h3] at h2
        exact absurd (consPfx.mp h2).1 (by decide)
      · rcases infxConsIff.mp hi2 with hp2 | hi3
        · exact absurd (consPfx.mp hp2).1 (by decide)
        · exact ih hi3

theorem lcChar_ne_lt {c : Char} (h : c ≠ '<') : lcChar c ≠ '<' := by
  unfold lcChar
  split <;> first | decide | exact h

theorem lcChar_colon {c : Char} (h : lcChar c = ':') : c = ':' := by
  unfold lcChar at h
  split at h <;> first | (exact absurd h (by decide)) | exact h

theorem lcStr_tag {t : Str} (ht : t ∈ allowedTags) : lcStr t = t := by
  fin_cases ht <;> decide

theorem safe_lc {s : Str} (hs : SafeStr s) : SafeStr (lcStr s) := by
  induction hs with
  | nil => exact .nil
  | chr c s hc _ ih =>
      simp only [lcStr, List.map_cons]
      exact .chr _ _ (lcChar_ne_lt hc) ih
  | tagOpen t s ht _ ih =>
      have he : lcStr ('<' :: (t ++ s)) = '<' :: (t ++ lcStr s) := by
        simp only [lcStr, List.map_cons, List.map_append]
        rw [show lcChar '<' = '<' from rfl]
        rw [show List.map lcChar t = lcStr t from rfl, lcStr_tag ht]
      rw [he]
      exact .tagOpen t _ ht ih
  | tagClose s _ ih =>
      have he : lcStr ('<' :: '/' :: s) = '<' :: '/' :: lcStr s := rfl
      rw [he]
      exact .tagClose _ ih


theorem urlOk_no_js {v : Str} (h : urlOk v = true) :
    ¬ (("javascript:".toList) <+: lcStr v) := by
  simp only [urlOk, Bool.or_eq_true, isPfxOf_iff] at h
  rcases h with (h | h) | h
  · obtain ⟨r, hr⟩ := h
    intro hj
    rw [← hr] at hj
    have he : lcStr ("http://".toList ++ r) = "http://".toList ++ lcStr r := by
      simp only [lcStr, List.map_append]
      rfl
    rw [he] at hj
    exact absurd (consPfx.mp hj).1 (by decide)
  · obtain ⟨r, hr⟩ := h
    intro hj
    rw [← hr] at hj
    have he : lcStr ("https://".toList ++ r) = "https://".toList ++ lcStr r := by
      simp only [lcStr, List.map_append]
      rfl
    rw [he] at hj
    exact absurd (consPfx.mp hj).1 (by decide)
  · intro hj
    obtain ⟨r, hr⟩ := hj
    have hcol : ':' ∈ lcStr v := by
      rw [← hr]
      simp only [List.mem_append]
      left
      decide
    simp only [lcStr, List.mem_map] at hcol
    obtain ⟨c, hc, hlc⟩ := hcol
    rw [lcChar_colon hlc] at hc
    simp only [Bool.not_eq_eq_eq_not, Bool.not_true] at h
    simp at h
    exact absurd hc h

theorem noJsUrlL_append {a b : List Hnode} (ha : noJsUrlL a = true)
    (hb : noJsUrlL b = true) : noJsUrlL (a ++ b) = true := by
  induction a with
  | nil => simpa using hb
  | cons x xs ih =>
      simp only [noJsUrlL, Bool.and_eq_true] at ha
      simp only [List.cons_append, noJsUrlL, Bool.and_eq_true]
      exact ⟨ha.1, ih ha.2⟩

mutual
theorem noJs_sanitize1 (h : Hnode) : noJsUrlL (sanitize1 h) = true := by
  cases h with
  | text s => simp [sanitize1, noJsUrlL, noJsUrl1]
  | elem t attrs cs =>
      by_cases hskip : t ∈ skipContentTags
      · simp [sanitize1, hskip, noJsUrlL]
      · by_cases hmem : t ∈ allowedTags
        · simp only [sanitize1, if_neg hskip, if_pos hmem, noJsUrlL, noJsUrl1,
            Bool.and_eq_true, Bool.and_true]
          refine ⟨?_, noJs_sanitizeL cs⟩
          simp only [List.all_eq_true]
          intro nv hnv
          simp only [filterAttrs, List.mem_filter, Bool.and_eq_true] at hnv
          rcases hnv with ⟨_, _, hurl⟩
          simp only [Bool.or_eq_true] at hurl
          rcases hurl with hurl | hurl
          · simp [hurl]
          · have hnj := urlOk_no_js hurl
            have hfalse : (("javascript:".toList).isPrefixOf (lcStr nv.2)) = false := by
              rw [← Bool.not_eq_true, isPfxOf_iff]
              exact hnj
            simp only [Bool.or_eq_true, Bool.not_eq_eq_eq_not, Bool.not_true]
            right
            simpa using hfalse
        · simp only [sanitize1, if_neg hskip, if_neg hmem]
          exact noJs_sanitizeL cs
termination_by sizeOf h

theorem noJs_sanitizeL (l : List Hnode) : noJsUrlL (sanitizeL l) = true := by
  cases l with
  | nil => simp [sanitizeL, noJsUrlL]
  | cons h t =>
      simp only [sanitizeL]
      exact noJsUrlL_append (noJs_sanitize1 h) (noJs_sanitizeL t)
termination_by sizeOf l
end

theorem walkTD_fst : ∀ (bs : List Block) (t d : Str),
    (walkTD bs t d).1 = if t = [] then firstUsableH1 bs else t := by
  intro bs
  induction bs with
  | nil =>
      intro t d
      by_cases ht : t = [] <;> simp [walkTD, firstUsableH1, ht]
  | cons b rest ih =>
      intro t d
      cases b with
      | heading n c =>
          by_cases hcond : n = 1 ∧ t = []
          · obtain ⟨rfl, rfl⟩ := hcond
            have hstep : walkTD (Block.heading 1 c :: rest) [] d =
                walkTD rest (trimStr (flattenText c)) d := by
              simp [walkTD]
            rw [hstep, ih]
            by_cases he : trimStr (flattenText c) = []
            · simp [he, firstUsableH1]
            · simp [he, firstUsableH1]
          · have hstep : walkTD (Block.heading n c :: rest) t d = walkTD rest t d := by
              simp only [walkTD, if_neg hcond]
            rw [hstep, ih]
            by_cases ht : t = []
            · have hn : ¬ n = 1 := fun hn => hcond ⟨hn, ht⟩
              simp [ht, hn, firstUsableH1]
            · simp [ht]
      | para c =>
          by_cases hd : d = []
          · have hstep : walkTD (Block.para c :: rest) t d =
                walkTD rest t (trimStr (flattenText c)) := by
              simp only [walkTD, if_pos hd]
            rw [hstep, ih]
            simp [firstUsableH1]
          · have hstep : walkTD (Block.para c :: rest) t d = walkTD rest t d := by
              simp only [walkTD, if_neg hd]
            rw [hstep, ih]
            simp [firstUsableH1]

theorem walkTD_snd : ∀ (bs : List Block) (t d : Str),
    (walkTD bs t d).2 = if d = [] then firstUsablePara bs else d := by
  intro bs
  induction bs with
  | nil =>
      intro t d
      by_cases hd : d = [] <;> simp [walkTD, firstUsablePara, hd]
  | cons b rest ih =>
      intro t d
      cases b with
      | heading n c =>
          by_cases hcond : n = 1 ∧ t = []
          · have hstep : walkTD (Block.heading n c :: rest) t d =
                walkTD rest (trimStr (flattenText c)) d := by
              simp only [walkTD, if_pos hcond]
            rw [hstep, ih]
            simp [firstUsablePara]
          · have hstep : walkTD (Block.heading n c :: rest) t d = walkTD rest t d := by
              simp only [walkTD, if_neg hcond]
            rw [hstep, ih]
            simp [firstUsablePara]
      | para c =>
          by_cases hd : d = []
          · subst hd
            have hstep : walkTD (Block.para c :: rest) t [] =
                walkTD rest t (trimStr (flattenText c)) := by
              simp [walkTD]
            rw [hstep, ih]
            by_cases he : trimStr (flattenText c) = []
            · simp [he, firstUsablePara]
            · simp [he, firstUsablePara]
          · have hstep : walkTD (Block.para c :: rest) t d = walkTD rest t d := by
              simp only [walkTD, if_neg hd]
            rw [hstep, ih]
            simp [hd, firstUsablePara]

theorem extractTD_eq (md : Str) :
    extractTitleAndDescription md =
      (firstUsableH1 (parseDoc md), firstUsablePara (parseDoc md)) := by
  unfold extractTitleAndDescription
  refine Prod.ext ?_ ?_
  · simp [walkTD_fst]
  · simp [walkTD_snd]

theorem foldl_append_filter (p : Str → Bool) :
    ∀ (l : List Str) (acc : List Str),
      l.foldl (fun acc x => if p x then acc ++ [x] else acc) acc =
        acc ++ l.filter p := by
  intro l
  induction l with
  | nil => intro acc; simp
  | cons x t ih =>
      intro acc
      by_cases h : p x = true
      · simp [List.foldl_cons, h, ih, List.filter_cons, List.append_assoc]
      · simp [List.foldl_cons, h, ih, List.filter_cons]

/-- Claim C1: for every markdown input, the htmlContent produced by
`ProcessMarkdown` never contains a `<script` substring
(case-insensitively, expressed by lower-casing the output), and the
sanitized document carries no `javascript:` URL in any `href`/`src`
attribute; the htmlContent is exactly the rendered sanitized document. -/
theorem claim1_no_script (md : Str) :
    Except.map (fun pc => pc.HTMLContent) (ProcessMarkdown md) = Except.ok (htmlOf md) ∧
    ¬ (("<script".toList) <:+: lcStr (htmlOf md)) ∧
    noJsUrlL (sanitizedDoc md) = true := by
  refine ⟨rfl, ?_, noJs_sanitizeL ((parseDoc md).map blockToH)⟩
  have hsane : saneL (sanitizedDoc md) = true :=
    sane_sanitizeL ((parseDoc md).map blockToH)
  have hsafe : SafeStr (lcStr (htmlOf md)) :=
    safe_lc (safe_renderBlocks (sanitizedDoc md) hsane)
  exact safe_no_script hsafe

/-- Claim C2, counterexample: two markdown inputs whose internal-image
lists differ produce identical `ProcessMarkdown` results, so the
returned `ProcessedContent` cannot contain an internal-image component
(the Go struct has only title, description and htmlContent, and
`findInternalImages` is never called by `ProcessMarkdown`). -/
theorem claim2_cex :
    ProcessMarkdown ("![a](ftp://x)".toList) = ProcessMarkdown ("![a](ftp://y)".toList) ∧
    findInternalImages ("![a](ftp://x)".toList) ≠ findInternalImages ("![a](ftp://y)".toList) := by
  exact ⟨rfl, by decide⟩

/-- Claim C2, amended: `ProcessMarkdown` returns exactly title,
description and sanitized htmlContent — no internal-image component;
the internal-image scan exists only as the separate, uncalled
`findInternalImages`. -/
theorem claim2_amended (md : Str) :
    ProcessMarkdown md = Except.ok ⟨(extractTitleAndDescription md).1,
      (extractTitleAndDescription md).2, htmlOf md⟩ := rfl

/-- Claim C3, counterexample: a first level-1 heading with empty text is
not final — because the code re-checks `title == ""`, a later level-1
heading overwrites it, contradicting "any level-1 heading after the
first is ignored" (the spec-side rule `specTitle` yields the empty
string here, the code yields `Second`). -/
theorem claim3_cex :
    (extractTitleAndDescription ("#\n# Second".toList)).1 ≠
      specTitle ("#\n# Second".toList) ∧
    (extractTitleAndDescription ("#\n# Second".toList)).1 = "Second".toList ∧
    specTitle ("#\n# Second".toList) = [] := by
  exact ⟨by decide, by decide, by decide⟩

/-- Claim C3, amended: the title is the trimmed flattened text of the
first level-1 heading whose trimmed flattened text is nonempty (empty
when there is none); level-1 headings after that one are ignored, and on
`# First\n\n# Second\n\nDesc.` the title is `First`. -/
theorem claim3_amended (md : Str) :
    (extractTitleAndDescription md).1 = firstUsableH1 (parseDoc md) ∧
    (extractTitleAndDescription ("# First\n\n# Second\n\nDesc.".toList)).1 =
      "First".toList := by
  refine ⟨?_, by decide⟩
  rw [extractTD_eq]

/-- Claim C4, counterexample: a first paragraph whose direct text is
empty (here a paragraph holding only an image) is not final — because
the code re-checks `description == ""`, a later paragraph supplies the
description, contradicting "the first paragraph block regardless" (the
spec-side rule `specDescription` yields the empty string here, the code
yields `Real`). -/
theorem claim4_cex :
    (extractTitleAndDescription ("![a](x.png)\n\nReal".toList)).2 ≠
      specDescription ("![a](x.png)\n\nReal".toList) ∧
    (extractTitleAndDescription ("![a](x.png)\n\nReal".toList)).2 = "Real".toList ∧
    specDescription ("![a](x.png)\n\nReal".toList) = [] := by
  exact ⟨by decide, by decide, by decide⟩

/-- Claim C4, amended: the description is the trimmed flattened direct
text of the first paragraph whose trimmed flattened direct text is
nonempty (empty when there is none). -/
theorem claim4_amended (md : Str) :
    (extractTitleAndDescription md).2 = firstUsablePara (parseDoc md) := by
  rw [extractTD_eq]

/-- Claim C5: `findInternalImages` returns exactly the regex-captured
image targets that do not start with `http://` or `https://`, in source
order with duplicates kept; in particular it maps the three-image
example to `[x.png, z.png]` and keeps duplicates. -/
theorem claim5_internal_images (md : Str) :
    findInternalImages md = Except.ok ((scanImages md).filter isInternalPath) ∧
    findInternalImages ("![a](x.png) ![b](https://ex.com/y.jpg) ![c](z.png)".toList) =
      Except.ok ["x.png".toList, "z.png".toList] ∧
    findInternalImages ("![a](x.png) ![b](x.png)".toList) =
      Except.ok ["x.png".toList, "x.png".toList] := by
  refine ⟨?_, by decide, by decide⟩
  unfold findInternalImages
  rw [foldl_append_filter]
  simp

/-- Claim C6: on a markdown input with no image occurrence, the function
returns an empty list and no error. -/
theorem claim6_no_images (md : Str) (h : scanImages md = []) :
    findInternalImages md = Except.ok [] := by
  unfold findInternalImages
  rw [h]
  rfl

/-- Witness for claim C6 at a concrete image-free input. -/
theorem claim6_witness :
    scanImages ("A trip plan with no pictures.".toList) = [] ∧
    findInternalImages ("A trip plan with no pictures.".toList) = Except.ok [] :=
  ⟨by decide, claim6_no_images ("A trip plan with no pictures.".toList) (by decide)⟩

/-- Claim C7: processing the empty string succeeds with empty title,
empty description and empty htmlContent, and the internal-image scan of
the empty string is the empty list with no error. -/
theorem claim7_empty_input :
    ProcessMarkdown ("".toList) = Except.ok ⟨[], [], []⟩ ∧
    findInternalImages ("".toList) = Except.ok [] :=
  ⟨rfl, rfl⟩

/-- Claim C8: the sanitizer is idempotent — sanitizing an
already-sanitized document changes nothing. -/
theorem claim8_sanitize_idem (l : List Hnode) :
    sanitizeL (sanitizeL l) = sanitizeL l :=
  san_idemL l

/-- Claim C9, counterexample: when the storage collaborator fails,
`ProcessMarkdownFromFile` does not return the storage error unchanged —
it wraps it with the context message `failed to read file`. -/
theorem claim9_cex :
    ProcessMarkdownFromFile (fun _ => Except.error (GoErr.base ("file not found".toList)))
        ("trip.md".toList) ≠
      Except.error (GoErr.base ("file not found".toList)) ∧
    ProcessMarkdownFromFile (fun _ => Except.error (GoErr.base ("file not found".toList)))
        ("trip.md".toList) =
      Except.error (GoErr.wrap ("failed to read file".toList)
        (GoErr.base ("file not found".toList))) := by
  exact ⟨by decide, rfl⟩

/-- Claim C9, amended: a storage failure is propagated as an error (no
`ProcessedContent` is returned alongside it), wrapped with the context
message `failed to read file` while keeping the original storage error
as the unwrappable cause. -/
theorem claim9_amended (getFile : Str → Except GoErr Str) (filePath : Str) (e : GoErr)
    (h : getFile filePath = Except.error e) :
    ProcessMarkdownFromFile getFile filePath =
      Except.error (GoErr.wrap ("failed to read file".toList) e) ∧
    GoErr.unwrapErr (GoErr.wrap ("failed to read file".toList) e) = some e := by
  unfold ProcessMarkdownFromFile
  rw [h]
  exact ⟨rfl, rfl⟩

/-- Witness for claim C9 at a concrete failing storage collaborator. -/
theorem claim9_witness :
    ProcessMarkdownFromFile (fun _ => Except.error (GoErr.base ("boom".toList)))
        ("a.md".toList) =
      Except.error (GoErr.wrap ("failed to read file".toList) (GoErr.base ("boom".toList))) ∧
    GoErr.unwrapErr (GoErr.wrap ("failed to read file".toList) (GoErr.base ("boom".toList))) =
      some (GoErr.base ("boom".toList)) :=
  claim9_amended (fun _ => Except.error (GoErr.base ("boom".toList))) ("a.md".toList)
    (GoErr.base ("boom".toList)) rfl

/-- Claim C10: `processImages` is the identity with no error, so the
image-processing error branch of `ProcessMarkdown` is unreachable and
the returned htmlContent is exactly the output of `markdownToHTML`. -/
theorem claim10_processImages_id (s md : Str) :
    processImages s = Except.ok s ∧
    markdownToHTML md = Except.ok (htmlOf md) ∧
    ProcessMarkdown md = Except.ok ⟨(extractTitleAndDescription md).1,
      (extractTitleAndDescription md).2, htmlOf md⟩ :=
  ⟨rfl, rfl, rfl⟩
